import Mathlib

/-!
Verification development for the bubble-based variant-calling engine of
rs-gfa-utils (src/variants.rs, src/commands/gfa2vcf.rs).

Byte strings (`BString`, `Vec<u8>`, `&[u8]`) are modelled as `List Nat`,
node ids (`usize`, `NodeId`) as `Nat`, and edge budgets (`i32`) as `Int`.
Hash maps keyed by node id or byte string are modelled as association
lists; a fallible Rust operation (out-of-bounds indexing, `unwrap` on a
missing entry, arithmetic underflow of a `usize` as checked in debug
profile) is modelled by an `Option` result, `none` standing for a panic.
-/

namespace GfaUtils

/-- Generic association-list lookup, modelling `HashMap::get`. -/
def assocFind {κ α : Type} [BEq κ] (l : List (κ × α)) (k : κ) : Option α :=
  (l.find? (fun p => p.fst == k)).map Prod.snd

/-! ### oriented_sequence (src/variants.rs lines 29-39) -/

/-- Complement table of `bio::alphabets::dna` (rust-bio): the IUPAC symbol
pairs, upper- and lowercase; every other byte is its own complement. -/
def compTable : List (Nat × Nat) :=
  [(65, 84), (71, 67), (67, 71), (84, 65), (89, 82), (82, 89), (87, 87),
   (83, 83), (75, 77), (77, 75), (68, 72), (86, 66), (72, 68), (66, 86),
   (78, 78),
   (97, 116), (103, 99), (99, 103), (116, 97), (121, 114), (114, 121),
   (119, 119), (115, 115), (107, 109), (109, 107), (100, 104), (118, 98),
   (104, 100), (98, 118), (110, 110)]

/-- Per-byte DNA complement, modelling `bio::alphabets::dna::complement`:
table entries are swapped, all other bytes map to themselves. -/
def complement (b : Nat) : Nat := (compTable.lookup b).getD b

/-- Reverse complement, modelling `bio::alphabets::dna::revcomp`:
reverse the sequence and complement each byte. -/
def revcomp (s : List Nat) : List Nat := s.reverse.map complement

/-- Orientation of a path step, as in the `gfa` crate. -/
inductive Orientation where
  | Forward : Orientation
  | Backward : Orientation
deriving DecidableEq

/-- Orientation.is_reverse from the `gfa` crate. -/
def Orientation.is_reverse : Orientation → Bool
  | .Forward => false
  | .Backward => true

/-- Embedding of `oriented_sequence`: reverse-complement the sequence when
the orientation is reverse, otherwise return it unchanged. -/
def oriented_sequence (seq : List Nat) (orient : Orientation) : List Nat :=
  if orient.is_reverse then revcomp seq else seq

theorem lookup_mem {l : List (Nat × Nat)} {a b : Nat}
    (h : l.lookup a = some b) : (a, b) ∈ l := by
  induction l with
  | nil => simp [List.lookup] at h
  | cons p rest ih =>
    obtain ⟨k, v⟩ := p
    rw [List.lookup] at h
    by_cases hak : a = k
    · subst hak
      simp at h
      subst h
      exact List.mem_cons_self _ _
    · have hbk : (a == k) = false := beq_false_of_ne hak
      rw [hbk] at h
      exact List.mem_cons_of_mem _ (ih h)

theorem complement_complement (b : Nat) : complement (complement b) = b := by
  rcases h : compTable.lookup b with _ | c
  · unfold complement
    rw [h]
    simp only [Option.getD_none]
    rw [h]
    simp
  · have hm : (b, c) ∈ compTable := lookup_mem h
    have hb : complement b = c := by unfold complement; rw [h]; rfl
    rw [hb]
    fin_cases hm <;> decide

/-! ### detect_variants_against_ref (src/variants.rs lines 121-226) -/

/-- VariantKey from src/variants.rs. -/
structure VariantKey where
  ref_name : List Nat
  sequence : List Nat
  pos : Nat
deriving DecidableEq

/-- Variant from src/variants.rs. -/
inductive Variant where
  | Del : List Nat → Variant
  | Ins : List Nat → Variant
  | Snv : Nat → Variant
deriving DecidableEq

/-- Lookup of a node sequence in the `segment_sequences` map. -/
def segLookup (segs : List (Nat × List Nat)) (n : Nat) : Option (List Nat) :=
  assocFind segs n

/-- Insertion into the `FnvHashMap<VariantKey, Variant>` result map:
replace the value when the key is present, append otherwise. -/
def mapInsert (m : List (VariantKey × Variant)) (k : VariantKey) (v : Variant) :
    List (VariantKey × Variant) :=
  if m.any (fun p => p.fst == k) then
    m.map (fun p => if p.fst == k then (k, v) else p)
  else m ++ [(k, v)]

/-- Loop body of `detect_variants_against_ref`.  The cursors are modelled
structurally: `refRest`/`queryRest` are the suffixes of the two paths from
the current indices on, and `prevRef` is `ref_path[ref_ix - 1]` when
`ref_ix > 0` (reading it at `ref_ix = 0` underflows, hence panics).  The
accumulated base offsets `refSeqIx`/`querySeqIx` are carried explicitly.
The fuel argument strictly exceeds the number of loop iterations, every
iteration consuming at least one path element. -/
def detectLoop (segs : List (Nat × List Nat)) (refName : List Nat) :
    Nat → List Nat → List Nat → Option Nat → Nat → Nat →
    List (VariantKey × Variant) → Option (List (VariantKey × Variant))
  | 0, _, _, _, _, _, _ => none
  | _ + 1, [], _, _, _, _, vars => some vars
  | _ + 1, _ :: _, [], _, _, _, vars => some vars
  | fuel + 1, refNode :: refTl, queryNode :: queryTl, prevRef, refSeqIx, querySeqIx, vars =>
    match segLookup segs refNode, segLookup segs queryNode with
    | none, _ => none
    | some _, none => none
    | some refSeq, some querySeq =>
      if refNode = queryNode then
        detectLoop segs refName fuel refTl queryTl (some refNode)
          (refSeqIx + refSeq.length) (querySeqIx + querySeq.length) vars
      else
        match refTl, queryTl with
        | [], _ => none
        | _ :: _, [] => none
        | nextRef :: _, nextQuery :: _ =>
          if nextRef = queryNode then
            match prevRef with
            | none => none
            | some prevNode =>
              match segLookup segs prevNode with
              | none => none
              | some prevSeq =>
                match prevSeq.getLast? with
                | none => none
                | some lastPrev =>
                  if querySeqIx = 0 then none
                  else
                    detectLoop segs refName fuel refTl (queryNode :: queryTl)
                      (some refNode) (refSeqIx + refSeq.length) querySeqIx
                      (mapInsert vars
                        ⟨refName, lastPrev :: refSeq, querySeqIx - 1⟩
                        (Variant.Del [lastPrev]))
          else if nextQuery = refNode then
            match prevRef with
            | none => none
            | some prevNode =>
              match segLookup segs prevNode with
              | none => none
              | some prevSeq =>
                match prevSeq.getLast? with
                | none => none
                | some lastPrev =>
                  if refSeqIx = 0 then none
                  else
                    detectLoop segs refName fuel (refNode :: refTl) queryTl
                      prevRef refSeqIx (querySeqIx + querySeq.length)
                      (mapInsert vars
                        ⟨refName, lastPrev :: refSeq, refSeqIx - 1⟩
                        (Variant.Ins [lastPrev]))
          else
            match querySeq.getLast? with
            | none => none
            | some lastQuery =>
              detectLoop segs refName fuel refTl queryTl (some refNode)
                (refSeqIx + refSeq.length) (querySeqIx + querySeq.length)
                (mapInsert vars ⟨refName, refSeq, querySeqIx⟩
                  (Variant.Snv lastQuery))

/-- Embedding of `detect_variants_against_ref`: walk the two paths from
their heads with empty accumulators; `none` is a panic of the original. -/
def detect_variants_against_ref (segs : List (Nat × List Nat))
    (refName refPath queryPath : List Nat) :
    Option (List (VariantKey × Variant)) :=
  detectLoop segs refName (refPath.length + queryPath.length + 1)
    refPath queryPath none 0 0 []

/-! ### find_all_paths_between (src/variants.rs lines 346-440) -/

/-- Finite graph model: right-direction adjacency lists and node sequences,
the two views of a `HashGraph` the variant code reads
(`handle_edges_iter(.., Direction::Right)` and `sequence`). -/
structure HGraph where
  adj : List (Nat × List Nat)
  seqs : List (Nat × List Nat)

/-- Right neighbors of a node (empty when the node is absent). -/
def neighborsOf (g : HGraph) (n : Nat) : List Nat :=
  (assocFind g.adj n).getD []

/-- Node sequence lookup; `HashGraph::sequence` panics on a missing node. -/
def sequenceOf (g : HGraph) (n : Nat) : Option (List Nat) :=
  assocFind g.seqs n

/-- Test `x.ends_with(&[c])` on a path. -/
def endsWithNode (c : Nat) (p : List Nat) : Bool :=
  p.getLast? == some c

/-- Inner neighbor loop of `find_all_paths_between`: extend every path of
`currPaths` by each neighbor, appending the clones to the accumulator,
enqueue unseen neighbors, and count edges against the budget; the `Bool`
in the result tells whether the edge limit was reached (the loop breaks
after fully processing the edge that exceeded the budget). -/
def neighborLoop (maxEdges : Int) (currPaths : List (List Nat))
    (visited : List Nat) :
    List Nat → List (List Nat) → List Nat → Nat →
    List (List Nat) × List Nat × Nat × Bool
  | [], paths, q, ce => (paths, q, ce, false)
  | n :: rest, paths, q, ce =>
    let paths2 := paths ++ currPaths.map (fun x => x ++ [n])
    let q2 := if visited.contains n || q.contains n then q else q ++ [n]
    if ((ce + 1 : Nat) : Int) > maxEdges then (paths2, q2, ce + 1, true)
    else neighborLoop maxEdges currPaths visited rest paths2 q2 (ce + 1)

/-- Outer while loop of `find_all_paths_between` over the work queue.
Dequeued end nodes are skipped; otherwise the dequeued node is marked
visited, the in-flight paths ending at it are detached and extended by
every outbound edge, and the loop stops early when the edge budget is
exceeded.  The fuel strictly exceeds the number of possible dequeues
(every dequeue was a distinct enqueue, and enqueues are bounded by one
plus the total adjacency size), so the fuel-0 branch is never reached
from `find_all_paths_between`. -/
def fapLoop (g : HGraph) (endNode : Nat) (maxEdges : Int) :
    Nat → List (List Nat) → List Nat → List Nat → Nat → List (List Nat)
  | 0, paths, _, _, _ => paths
  | fuel + 1, paths, q, visited, ce =>
    match q with
    | [] => paths
    | curr :: qrest =>
      if curr = endNode then fapLoop g endNode maxEdges fuel paths qrest visited ce
      else
        match neighborLoop maxEdges (paths.filter (endsWithNode curr))
            (curr :: visited) (neighborsOf g curr)
            (paths.filter (fun p => !(endsWithNode curr p))) qrest ce with
        | (paths2, _, _, true) => paths2
        | (paths2, q2, ce2, false) =>
          fapLoop g endNode maxEdges fuel paths2 q2 (curr :: visited) ce2

/-- Fuel bound for the BFS walk: total adjacency size plus two. -/
def graphFuel (g : HGraph) : Nat :=
  (g.adj.map (fun p => p.snd.length)).sum + 2

/-- Embedding of `find_all_paths_between`: run the queue-based walk from
the start node and keep only the collected paths that end at the end
node. -/
def find_all_paths_between (g : HGraph) (startNode endNode : Nat)
    (maxEdges : Int) : List (List Nat) :=
  (fapLoop g endNode maxEdges (graphFuel g) [[startNode]] [startNode] [] 0).filter
    (endsWithNode endNode)

/-! ### Variant aggregation (src/variants.rs lines 481-575 and 726-747) -/

/-- The aggregate map `HashMap<BString, HashSet<BString>>` from
`detect_all_variants`, keyed by the composite `chrom_pos_ref` byte string
and holding the set of distinct alternate byte strings. -/
abbrev AggMap := List (List Nat × List (List Nat))

/-- One aggregation step:
`stuff_to_alts_map.entry(key).or_insert_with(HashSet::new)` followed by
`get_mut(&key).unwrap().insert(alt)` — create the set for the key when
absent, then add the alternate unless it is already present. -/
def aggInsert (m : AggMap) (k a : List Nat) : AggMap :=
  if m.any (fun p => p.fst == k) then
    m.map (fun p =>
      if p.fst == k then (p.fst, if p.snd.contains a then p.snd else p.snd ++ [a])
      else p)
  else m ++ [(k, [a])]

/-- Membership in the aggregate map: alternate `a` is recorded under
key `k`. -/
def aggMem (m : AggMap) (k a : List Nat) : Prop :=
  ∃ alts, (k, alts) ∈ m ∧ a ∈ alts

/-- Folding a stream of (key, alternate) variant events into an empty
aggregate map, the single synchronization point of the run. -/
def aggregateEvents (events : List (List Nat × List Nat)) : AggMap :=
  events.foldl (fun m e => aggInsert m e.fst e.snd) []

/-! ### detect_variants_per_reference (src/variants.rs lines 577-894) -/

/-- The `get_last` closure: last byte of the preceding reference node
sequence followed by the current reference node sequence; slicing at
`len() - 1` panics on an empty sequence. -/
def get_last (precSeq nodeSeq : List Nat) : Option (List Nat) :=
  match precSeq.getLast? with
  | none => none
  | some b => some (b :: nodeSeq)

/-- ASCII decimal digits of a number, for the textual positions embedded
in composite keys. -/
def decimalBytes (n : Nat) : List Nat :=
  (toString n).data.map Char.toNat

/-- Composite key `[chrom, pos, ref].join("_")` (byte 95 is the
underscore). -/
def joinKey3 (a b c : List Nat) : List Nat :=
  a ++ 95 :: (b ++ 95 :: c)

/-- Bytes of the `_del` suffix. -/
def delSuffix : List Nat := [95, 100, 101, 108]

/-- Bytes of the `_ins` suffix. -/
def insSuffix : List Nat := [95, 105, 110, 115]

/-- Bytes of the `_snv` suffix. -/
def snvSuffix : List Nat := [95, 115, 110, 118]

/-- The `for _i in 0..max_index` walk of one candidate path against the
reference inside `detect_variants_per_reference`.  State: remaining
iterations, `pos_ref`, `pos_path`, `current_index_step_ref`,
`current_index_step_path`, and the aggregate map.  Every indexing
operation and `unwrap` of the original is mirrored by an `Option` match;
`none` is a panic.  The out-of-bounds test on the reference performs
`continue`, the lookahead bound tests perform `break` (returning the map
accumulated so far). -/
def innerLoop (g : HGraph) (currentRef refPath : List Nat) (startIx : Nat)
    (path : List Nat) :
    Nat → Nat → Nat → Nat → Nat → AggMap → Option AggMap
  | 0, _, _, _, _, m => some m
  | iters + 1, posRef, posPath, idxRef, idxPath, m =>
    if refPath.length ≤ idxRef + startIx then
      innerLoop g currentRef refPath startIx path iters posRef posPath idxRef idxPath m
    else
      match refPath.get? (idxRef + startIx), path.get? idxPath with
      | none, _ => none
      | some _, none => none
      | some refNode, some pathNode =>
        if refNode = pathNode then
          match sequenceOf g refNode with
          | none => none
          | some nodeSeq =>
            innerLoop g currentRef refPath startIx path iters
              (posRef + nodeSeq.length) (posRef + nodeSeq.length)
              (idxRef + 1) (idxPath + 1) m
        else if path.length ≤ idxPath + 1 then some m
        else if refPath.length ≤ idxRef + startIx + 1 then some m
        else
          match path.get? (idxPath + 1), refPath.get? (idxRef + startIx + 1) with
          | none, _ => none
          | some _, none => none
          | some succPath, some succRef =>
            if succRef = pathNode then
              match sequenceOf g refNode with
              | none => none
              | some nodeSeqRef =>
                if idxRef + startIx = 0 then none
                else
                  match refPath.get? (idxRef + startIx - 1) with
                  | none => none
                  | some precNode =>
                    match sequenceOf g precNode with
                    | none => none
                    | some precSeq =>
                      match get_last precSeq nodeSeqRef, precSeq.getLast? with
                      | none, _ => none
                      | some _, none => none
                      | some lastSeq, some precLast =>
                        match refPath.get? (idxRef + 1 + startIx - 1) with
                        | none => none
                        | some _ =>
                          innerLoop g currentRef refPath startIx path iters
                            (posRef + nodeSeqRef.length) posPath
                            (idxRef + 1) idxPath
                            (aggInsert m
                              (joinKey3 currentRef (decimalBytes (posPath - 1)) lastSeq)
                              (precLast :: delSuffix))
            else if succPath = refNode then
              match sequenceOf g pathNode with
              | none => none
              | some nodeSeqPath =>
                if idxRef + startIx = 0 then none
                else
                  match refPath.get? (idxRef + startIx - 1) with
                  | none => none
                  | some precNode =>
                    match sequenceOf g precNode with
                    | none => none
                    | some precSeq =>
                      match precSeq.getLast? with
                      | none => none
                      | some precLast =>
                        match path.get? (idxPath + 1) with
                        | none => none
                        | some _ =>
                          innerLoop g currentRef refPath startIx path iters
                            posRef (posPath + nodeSeqPath.length)
                            idxRef (idxPath + 1)
                            (aggInsert m
                              (joinKey3 currentRef (decimalBytes (posRef - 1)) [precLast])
                              (precLast :: (nodeSeqPath ++ insSuffix)))
            else
              match sequenceOf g refNode, sequenceOf g pathNode with
              | none, _ => none
              | some _, none => none
              | some nodeSeqRef, some nodeSeqPath =>
                match nodeSeqPath.getLast? with
                | none => none
                | some pathLast =>
                  innerLoop g currentRef refPath startIx path iters
                    (posRef + nodeSeqRef.length) (posPath + nodeSeqPath.length)
                    (idxRef + 1) (idxPath + 1)
                    (aggInsert m
                      (joinKey3 currentRef (decimalBytes posPath) nodeSeqRef)
                      (pathLast :: snvSuffix))

/-- Walk of all candidate paths of one bubble: for each path, look up the
reference position of the bubble start (both `unwrap`s of the original),
then run the positional walk. -/
def pathsLoop (g : HGraph) (currentRef refPath : List Nat) (startIx : Nat)
    (nodeMap : List (Nat × List (List Nat × Nat))) (startNode : Nat) :
    List (List Nat) → AggMap → Option AggMap
  | [], m => some m
  | path :: rest, m =>
    match assocFind nodeMap startNode with
    | none => none
    | some pathMap =>
      match assocFind pathMap currentRef with
      | none => none
      | some posRef0 =>
        match innerLoop g currentRef refPath startIx path
            (min path.length refPath.length)
            (posRef0 + 1) (posRef0 + 1) 0 0 m with
        | none => none
        | some m2 => pathsLoop g currentRef refPath startIx nodeMap startNode rest m2

/-- Bubble loop of `detect_variants_per_reference`: a bubble whose start
node does not occur on the reference path is skipped (`continue`);
otherwise every candidate path produced by `find_all_paths_between` is
compared against the reference. -/
def bubbleLoop (g : HGraph) (currentRef refPath : List Nat)
    (nodeMap : List (Nat × List (List Nat × Nat))) (maxEdges : Int) :
    List (Nat × Nat) → AggMap → Option AggMap
  | [], m => some m
  | (startNode, endNode) :: rest, m =>
    match refPath.findIdx? (fun r => r == startNode) with
    | none => bubbleLoop g currentRef refPath nodeMap maxEdges rest m
    | some startIx =>
      match pathsLoop g currentRef refPath startIx nodeMap startNode
          (find_all_paths_between g startNode endNode maxEdges) m with
      | none => none
      | some m2 => bubbleLoop g currentRef refPath nodeMap maxEdges rest m2

/-- Embedding of `detect_variants_per_reference`: fold all bubbles into
the caller-supplied aggregate map. -/
def detect_variants_per_reference (g : HGraph) (currentRef refPath : List Nat)
    (bubbles : List (Nat × Nat))
    (nodeMap : List (Nat × List (List Nat × Nat))) (maxEdges : Int)
    (m : AggMap) : Option AggMap :=
  bubbleLoop g currentRef refPath nodeMap maxEdges bubbles m

/-! ### VCFRecord and the output sort (src/variants.rs lines 442-455 and
568-574) -/

/-- VCFRecord from src/variants.rs. -/
structure VCFRecord where
  chromosome : List Nat
  position : Int
  id : Option (List Nat)
  reference : List Nat
  alternate : Option (List Nat)
  quality : Option Int
  filter : Option (List Nat)
  info : Option (List Nat)
  format : Option (List Nat)
  sample_name : Option (List Nat)

/-- Three-way comparison of bytes (`u8::cmp`). -/
def natCmp (a b : Nat) : Ordering :=
  if a < b then .lt else if b < a then .gt else .eq

/-- Byte-lexicographic comparison of byte strings (`BString::cmp`):
compare bytes position by position, a strict prefix being smaller. -/
def bytesCmp : List Nat → List Nat → Ordering
  | [], [] => .eq
  | [], _ :: _ => .lt
  | _ :: _, [] => .gt
  | a :: as, b :: bs =>
    match natCmp a b with
    | .eq => bytesCmp as bs
    | o => o

/-- Three-way comparison of positions (`i32::cmp`). -/
def intCmp (a b : Int) : Ordering :=
  if a < b then .lt else if b < a then .gt else .eq

/-- The comparator of the final `vcf_list.sort_by`: chromosome name
first, position as tie-break. -/
def vcfRecordCmp (a b : VCFRecord) : Ordering :=
  match bytesCmp a.chromosome b.chromosome with
  | .eq => intCmp a.position b.position
  | o => o

/-- The final sort of `detect_all_variants`: a stable sort of the record
list by the comparator (Rust `sort_by`, modelled by merge sort). -/
def vcfLe (a b : VCFRecord) : Bool := (vcfRecordCmp a b).isLE

/-- The final sort of `detect_all_variants`: a stable sort of the record
list by the comparator (Rust `sort_by`, modelled by merge sort). -/
def sortVCFRecords (l : List VCFRecord) : List VCFRecord :=
  l.mergeSort vcfLe

/-! ### Claim C10 -/

/-- C10: `oriented_sequence` is the identity for forward orientation, and
applying it twice with reverse orientation restores the original sequence
(reverse-complement is an involution). -/
theorem oriented_sequence_forward_id_backward_involutive :
    (∀ s : List Nat, oriented_sequence s Orientation.Forward = s) ∧
    (∀ s : List Nat,
      oriented_sequence (oriented_sequence s Orientation.Backward)
        Orientation.Backward = s) := by
  constructor
  · intro s; rfl
  · intro s
    show revcomp (revcomp s) = s
    unfold revcomp
    simp only [List.map_reverse, List.reverse_reverse, List.map_map]
    have h : ∀ x ∈ s, (complement ∘ complement) x = id x :=
      fun x _ => complement_complement x
    rw [List.map_congr_left h, List.map_id]

/-! ### Claim C8 -/

/-- C8: when the start node equals the end node, `find_all_paths_between`
returns exactly the single length-1 path, for every graph and every
budget. -/
theorem find_all_paths_start_eq_end (g : HGraph) (s : Nat) (maxEdges : Int) :
    find_all_paths_between g s s maxEdges = [[s]] := by
  have hfuel : graphFuel g = (g.adj.map (fun p => p.snd.length)).sum + 1 + 1 := rfl
  unfold find_all_paths_between
  rw [hfuel]
  simp [fapLoop, endsWithNode]

/-! ### Claim C1 -/

/-- C1 (code bug): on the spec's Scenario B — reference `[A, B, C]` with
sequences `AC`, `G`, `T` and candidate `[A, C]` — the differ does not
return the single Deletion record the spec promises: it reads
`query_path[query_ix + 1]` out of bounds and panics. -/
theorem scenario_b_deletion_panics :
    detect_variants_against_ref [(1, [65, 67]), (2, [71]), (3, [84])]
      [82] [1, 2, 3] [1, 3] = none := by rfl

/-! ### Claim C2 -/

/-- C2 (code bug): a pair with no structural correspondence does not make
the walk exit with zero variants; already on the one-node paths `[1]`
versus `[2]` (both with sequences present) the differ reads
`ref_path[ref_ix + 1]` out of bounds and panics. -/
theorem divergent_pair_panics :
    detect_variants_against_ref [(1, [65]), (2, [67])] [82] [1] [2] =
      none := by rfl

/-! ### Claim C9 -/

/-- C9 counterexample: a node id absent from the sequence map does cause
the run to fail — the differ panics on the `unwrap` of the missing
segment (node 3 has no sequence here), refuting the claim that such a
miss is never surfaced as an error. -/
theorem sequence_map_miss_panics :
    detect_variants_against_ref [(1, [65]), (2, [71])] [82]
      [1, 2, 3] [1, 2, 3] = none := by rfl

/-- C9 amended: a bubble whose start node is absent from the reference
path is skipped silently by `detect_variants_per_reference` (that bubble
contributes nothing for that reference), but a node id absent from the
sequence map makes `detect_variants_against_ref` panic rather than being
recovered locally. -/
theorem lookup_miss_bubble_skipped (g : HGraph) (cr rp : List Nat)
    (s e : Nat) (rest : List (Nat × Nat))
    (nm : List (Nat × List (List Nat × Nat))) (me : Int) (m : AggMap)
    (hs : s ∉ rp) :
    detect_variants_per_reference g cr rp ((s, e) :: rest) nm me m =
        detect_variants_per_reference g cr rp rest nm me m ∧
      detect_variants_against_ref [(1, [65])] [82] [1, 2] [1, 2] = none := by
  constructor
  · unfold detect_variants_per_reference
    have hnone : rp.findIdx? (fun r => r == s) = none := by
      rw [List.findIdx?_eq_none_iff]
      intro x hx
      simp only [beq_eq_false_iff_ne]
      exact fun hxx => hs (hxx ▸ hx)
    rw [bubbleLoop, hnone]
  · rfl

/-- Witness for `lookup_miss_bubble_skipped` at a concrete input. -/
theorem lookup_miss_bubble_skipped_witness :
    (5 : Nat) ∉ ([1] : List Nat) ∧
    (detect_variants_per_reference ⟨[], []⟩ [82] [1] [(5, 6)] [] 0 [] =
        detect_variants_per_reference ⟨[], []⟩ [82] [1] [] [] 0 [] ∧
      detect_variants_against_ref [(1, [65])] [82] [1, 2] [1, 2] = none) :=
  ⟨by decide,
   lookup_miss_bubble_skipped ⟨[], []⟩ [82] [1] 5 6 [] [] 0 [] (by decide)⟩

/-! ### Claim C6 -/

theorem mapInsert_mem {m : List (VariantKey × Variant)} {k : VariantKey}
    {v : Variant} {a : VariantKey} {b : Variant}
    (h : (a, b) ∈ mapInsert m k v) : (a, b) ∈ m ∨ (a = k ∧ b = v) := by
  unfold mapInsert at h
  by_cases hany : m.any (fun p => p.fst == k)
  · rw [if_pos hany] at h
    obtain ⟨p, hp, hup⟩ := List.mem_map.mp h
    by_cases hpk : p.fst == k
    · rw [if_pos hpk] at hup
      right
      exact ⟨congrArg Prod.fst hup.symm, congrArg Prod.snd hup.symm⟩
    · rw [if_neg hpk] at hup
      left
      exact hup ▸ hp
  · rw [if_neg hany] at h
    rcases List.mem_append.mp h with h2 | h2
    · exact Or.inl h2
    · right
      have := List.mem_singleton.mp h2
      exact ⟨congrArg Prod.fst this, congrArg Prod.snd this⟩

theorem aggInsert_mem (m : AggMap) (k a k2 a2 : List Nat) :
    aggMem (aggInsert m k a) k2 a2 ↔ aggMem m k2 a2 ∨ (k2 = k ∧ a2 = a) := by
  unfold aggInsert aggMem
  by_cases hany : m.any (fun p => p.fst == k)
  · rw [if_pos hany]
    constructor
    · rintro ⟨alts, hmem, ha⟩
      obtain ⟨⟨pk, palts⟩, hp, hup⟩ := List.mem_map.mp hmem
      simp only at hup
      by_cases hpk : (pk == k)
      · rw [if_pos hpk] at hup
        injection hup with hfst hsnd
        subst hfst
        subst hsnd
        by_cases hc : palts.contains a
        · rw [if_pos hc] at ha
          exact Or.inl ⟨palts, hp, ha⟩
        · rw [if_neg hc] at ha
          rcases List.mem_append.mp ha with h2 | h2
          · exact Or.inl ⟨palts, hp, h2⟩
          · exact Or.inr ⟨by simpa using hpk, List.mem_singleton.mp h2⟩
      · rw [if_neg hpk] at hup
        injection hup with hfst hsnd
        subst hfst
        subst hsnd
        exact Or.inl ⟨palts, hp, ha⟩
    · rintro (⟨alts, hmem, ha⟩ | ⟨hk, ha⟩)
      · by_cases hpk : (k2 == k)
        · refine ⟨if alts.contains a then alts else alts ++ [a],
            List.mem_map.mpr ⟨(k2, alts), hmem, ?_⟩, ?_⟩
          · simp only
            rw [if_pos hpk]
          · by_cases hc : alts.contains a
            · rw [if_pos hc]; exact ha
            · rw [if_neg hc]; exact List.mem_append.mpr (Or.inl ha)
        · refine ⟨alts, List.mem_map.mpr ⟨(k2, alts), hmem, ?_⟩, ha⟩
          simp only
          rw [if_neg hpk]
      · obtain ⟨⟨pk, palts⟩, hp, hpk⟩ := List.any_eq_true.mp hany
        simp only at hpk
        refine ⟨if palts.contains a then palts else palts ++ [a],
          List.mem_map.mpr ⟨(pk, palts), hp, ?_⟩, ?_⟩
        · simp only
          rw [if_pos hpk, hk]
          have hpk2 : pk = k := by simpa using hpk
          rw [hpk2]
        · rw [ha]
          by_cases hc : palts.contains a
          · rw [if_pos hc]
            simpa using hc
          · rw [if_neg hc]
            exact List.mem_append.mpr (Or.inr (List.mem_singleton.mpr rfl))
  · rw [if_neg hany]
    constructor
    · rintro ⟨alts, hmem, ha⟩
      rcases List.mem_append.mp hmem with h2 | h2
      · exact Or.inl ⟨alts, h2, ha⟩
      · have h3 := List.mem_singleton.mp h2
        injection h3 with hfst hsnd
        subst hsnd
        exact Or.inr ⟨hfst, List.mem_singleton.mp ha⟩
    · rintro (⟨alts, hmem, ha⟩ | ⟨hk, ha⟩)
      · exact ⟨alts, List.mem_append.mpr (Or.inl hmem), ha⟩
      · refine ⟨[a], ?_, ?_⟩
        · rw [hk]
          exact List.mem_append.mpr (Or.inr (List.mem_singleton.mpr rfl))
        · rw [ha]
          exact List.mem_singleton.mpr rfl

theorem aggFold_mem (evs : List (List Nat × List Nat)) :
    ∀ (m : AggMap) (k a : List Nat),
      aggMem (List.foldl (fun m e => aggInsert m e.fst e.snd) m evs) k a ↔
        aggMem m k a ∨ (k, a) ∈ evs := by
  induction evs with
  | nil => intro m k a; simp
  | cons e rest ih =>
    intro m k a
    rw [List.foldl_cons, ih, aggInsert_mem]
    constructor
    · rintro ((h | ⟨hk, ha⟩) | h)
      · exact Or.inl h
      · exact Or.inr (List.mem_cons.mpr (Or.inl (by rw [hk, ha])))
      · exact Or.inr (List.mem_cons.mpr (Or.inr h))
    · rintro (h | h)
      · exact Or.inl (Or.inl h)
      · rcases List.mem_cons.mp h with h2 | h2
        · exact Or.inl (Or.inr ⟨congrArg Prod.fst h2, congrArg Prod.snd h2⟩)
        · exact Or.inr h2

theorem aggregateEvents_mem (evs : List (List Nat × List Nat))
    (k a : List Nat) : aggMem (aggregateEvents evs) k a ↔ (k, a) ∈ evs := by
  unfold aggregateEvents
  rw [aggFold_mem]
  simp [aggMem]

theorem aggInsert_nodup {m : AggMap} {k a : List Nat}
    (h : ∀ p ∈ m, p.snd.Nodup) : ∀ p ∈ aggInsert m k a, p.snd.Nodup := by
  intro p hp
  unfold aggInsert at hp
  by_cases hany : m.any (fun q => q.fst == k)
  · rw [if_pos hany] at hp
    obtain ⟨⟨qk, qalts⟩, hq, hup⟩ := List.mem_map.mp hp
    simp only at hup
    by_cases hqk : (qk == k)
    · rw [if_pos hqk] at hup
      subst hup
      show (if qalts.contains a then qalts else qalts ++ [a]).Nodup
      by_cases hc : qalts.contains a
      · rw [if_pos hc]
        exact h ⟨qk, qalts⟩ hq
      · rw [if_neg hc]
        rw [List.nodup_append]
        refine ⟨h ⟨qk, qalts⟩ hq, List.nodup_singleton a, ?_⟩
        intro x hx hx2
        have hxa : x = a := List.mem_singleton.mp hx2
        have hna : a ∉ qalts := by simpa using hc
        exact hna (hxa ▸ hx)
    · rw [if_neg hqk] at hup
      subst hup
      exact h ⟨qk, qalts⟩ hq
  · rw [if_neg hany] at hp
    rcases List.mem_append.mp hp with h2 | h2
    · exact h p h2
    · have h3 := List.mem_singleton.mp h2
      subst h3
      exact List.nodup_singleton a

theorem aggFold_nodup (evs : List (List Nat × List Nat)) :
    ∀ (m : AggMap), (∀ p ∈ m, p.snd.Nodup) →
      ∀ p ∈ List.foldl (fun m e => aggInsert m e.fst e.snd) m evs, p.snd.Nodup := by
  induction evs with
  | nil => intro m hm; simpa using hm
  | cons e rest ih =>
    intro m hm
    rw [List.foldl_cons]
    exact ih _ (aggInsert_nodup hm)

/-- C6: variant aggregation is order-independent and deduplicating —
folding (key, alternate) events in any order produces the same
key-to-alternate-set membership, and the alternate list stored under any
key never holds duplicates. -/
theorem variant_aggregation_order_independent :
    (∀ e1 e2 : List (List Nat × List Nat), e1.Perm e2 →
      ∀ k a, aggMem (aggregateEvents e1) k a ↔ aggMem (aggregateEvents e2) k a) ∧
    (∀ evs : List (List Nat × List Nat), ∀ k alts,
      (k, alts) ∈ aggregateEvents evs → alts.Nodup) := by
  constructor
  · intro e1 e2 hperm k a
    rw [aggregateEvents_mem, aggregateEvents_mem]
    exact hperm.mem_iff
  · intro evs k alts hmem
    exact aggFold_nodup evs [] (by simp) (k, alts) hmem

/-- Witness for `variant_aggregation_order_independent` at concrete
event lists related by a transposition. -/
theorem variant_aggregation_order_independent_witness :
    (([([65], [66]), ([67], [68])] : List (List Nat × List Nat)).Perm
        [([67], [68]), ([65], [66])]) ∧
    (aggMem (aggregateEvents [([65], [66]), ([67], [68])]) [65] [66] ↔
      aggMem (aggregateEvents [([67], [68]), ([65], [66])]) [65] [66]) :=
  ⟨by decide,
   variant_aggregation_order_independent.1 _ _ (by decide) [65] [66]⟩

/-! ### Claim C3 -/

/-- C3 counterexample: budget 0 on a bubble whose start has an outbound
edge going directly to the end node returns a non-empty path set — the
first edge is fully processed before the budget check breaks the walk. -/
theorem budget_zero_not_always_empty :
    (1 : Nat) ≠ 2 ∧
    neighborsOf ⟨[(1, [2])], []⟩ 1 = [2] ∧
    find_all_paths_between ⟨[(1, [2])], []⟩ 1 2 0 = [[1, 2]] ∧
    ([[1, 2]] : List (List Nat)) ≠ [] := by
  refine ⟨by decide, by decide, by decide, by decide⟩

/-- C3 amended: with edge budget 0 and distinct bubble endpoints, the
enumerator traverses exactly one edge and stops without error; the
result is empty unless that first outbound edge of the start node leads
directly to the end node, in which case the single path `[start, end]`
is returned. -/
theorem find_all_paths_budget_zero (g : HGraph) (s e m : Nat)
    (rest : List Nat) (hne : s ≠ e) (hadj : neighborsOf g s = m :: rest) :
    find_all_paths_between g s e 0 = if m = e then [[s, e]] else [] := by
  have hfuel : graphFuel g = (g.adj.map (fun p => p.snd.length)).sum + 1 + 1 := rfl
  unfold find_all_paths_between
  rw [hfuel]
  simp only [fapLoop, if_neg hne, hadj, neighborLoop, endsWithNode,
    List.filter, List.getLast?]
  norm_num
  by_cases hme : m = e
  · subst hme
    simp [List.filter, endsWithNode, List.getLast?]
  · have hbe : (m == e) = false := beq_false_of_ne hme
    simp [List.filter, endsWithNode, List.getLast?, hme, hbe]

/-- Witness for `find_all_paths_budget_zero`: first edge does not reach
the end node, so the budget-0 result is empty. -/
theorem find_all_paths_budget_zero_witness :
    (1 : Nat) ≠ 2 ∧ neighborsOf ⟨[(1, [3]), (3, [2])], []⟩ 1 = [3] ∧
    find_all_paths_between ⟨[(1, [3]), (3, [2])], []⟩ 1 2 0 = [] := by
  refine ⟨by decide, by decide, ?_⟩
  have h := find_all_paths_budget_zero ⟨[(1, [3]), (3, [2])], []⟩ 1 2 3 []
    (by decide) (by decide)
  simpa using h

/-! ### Claim C4 -/

/-- Invariant of the in-flight paths of the BFS walk: the path splits as
`ns ++ [t]` where the prefix `ns` starts at the start node, repeats no
node, avoids the end node and lies inside the visited set. -/
def GoodPath (startNode endNode : Nat) (V : List Nat) (p : List Nat) : Prop :=
  ∃ ns t, p = ns ++ [t] ∧ (ns ++ [t]).head? = some startNode ∧
    ns.Nodup ∧ endNode ∉ ns ∧ ∀ x ∈ ns, x ∈ V

theorem GoodPath.mono {s e : Nat} {V V2 : List Nat} {p : List Nat}
    (hsub : ∀ x ∈ V, x ∈ V2) (h : GoodPath s e V p) : GoodPath s e V2 p := by
  obtain ⟨ns, t, h1, h2, h3, h4, h5⟩ := h
  exact ⟨ns, t, h1, h2, h3, h4, fun x hx => hsub x (h5 x hx)⟩

theorem GoodPath.extend {s e : Nat} {V : List Nat} {p : List Nat} {c : Nat}
    (h : GoodPath s e V p) (hlast : p.getLast? = some c) (hcV : c ∉ V)
    (hce : c ≠ e) (n : Nat) : GoodPath s e (c :: V) (p ++ [n]) := by
  obtain ⟨ns, t, h1, h2, h3, h4, h5⟩ := h
  have htc : t = c := by
    rw [h1, List.getLast?_concat] at hlast
    exact Option.some.inj hlast
  subst htc
  refine ⟨ns ++ [t], n, by rw [h1], ?_, ?_, ?_, ?_⟩
  · cases ns with
    | nil => simpa using h2
    | cons x xs =>
      have hx : x = s := by simpa using h2
      simpa using hx
  · rw [List.nodup_append]
    refine ⟨h3, List.nodup_singleton t, ?_⟩
    intro y hy hy2
    have hyt : y = t := List.mem_singleton.mp hy2
    subst hyt
    exact hcV (h5 y hy)
  · intro hmem
    rcases List.mem_append.mp hmem with h6 | h6
    · exact h4 h6
    · exact hce (List.mem_singleton.mp h6).symm
  · intro x hx
    rcases List.mem_append.mp hx with h6 | h6
    · exact List.mem_cons_of_mem _ (h5 x h6)
    · rw [List.mem_singleton.mp h6]
      exact List.mem_cons_self _ _

theorem neighborLoop_inv (s e : Nat) (maxE : Int)
    (currPaths : List (List Nat)) (V2 : List Nat)
    (hcurr : ∀ p ∈ currPaths, ∀ n, GoodPath s e V2 (p ++ [n])) :
    ∀ (nbrs : List Nat) (paths : List (List Nat)) (q : List Nat) (ce : Nat),
      (∀ p ∈ paths, GoodPath s e V2 p) → q.Nodup → (∀ x ∈ V2, x ∉ q) →
      (∀ p ∈ (neighborLoop maxE currPaths V2 nbrs paths q ce).1,
          GoodPath s e V2 p) ∧
        (neighborLoop maxE currPaths V2 nbrs paths q ce).2.1.Nodup ∧
        (∀ x ∈ V2, x ∉ (neighborLoop maxE currPaths V2 nbrs paths q ce).2.1) := by
  intro nbrs
  induction nbrs with
  | nil =>
    intro paths q ce hp hq hvq
    exact ⟨hp, hq, hvq⟩
  | cons n rest ih =>
    intro paths q ce hp hq hvq
    rw [neighborLoop]
    set q2 := if V2.contains n || q.contains n then q else q ++ [n] with hq2def
    have hp2 : ∀ p ∈ paths ++ currPaths.map (fun x => x ++ [n]),
        GoodPath s e V2 p := by
      intro p hmem
      rcases List.mem_append.mp hmem with h1 | h1
      · exact hp p h1
      · obtain ⟨p0, hp0, hpe⟩ := List.mem_map.mp h1
        exact hpe ▸ hcurr p0 hp0 n
    have hq2n : q2.Nodup := by
      rw [hq2def]
      split_ifs with hcond
      · exact hq
      · rw [List.nodup_append]
        refine ⟨hq, List.nodup_singleton n, ?_⟩
        intro y hy hy2
        have hyn : y = n := List.mem_singleton.mp hy2
        subst hyn
        have hynq : y ∉ q := by
          intro hmm
          exact hcond (by simp [List.elem_eq_mem, hmm])
        exact hynq hy
    have hvq2 : ∀ x ∈ V2, x ∉ q2 := by
      rw [hq2def]
      split_ifs with hcond
      · exact hvq
      · intro x hx hmem
        rcases List.mem_append.mp hmem with h1 | h1
        · exact hvq x hx h1
        · have hxn : x = n := List.mem_singleton.mp h1
          subst hxn
          exact hcond (by simp [List.elem_eq_mem, hx])
    split_ifs with hbudget
    · exact ⟨hp2, hq2n, hvq2⟩
    · exact ih _ _ _ hp2 hq2n hvq2

theorem fapLoop_inv (g : HGraph) (s e : Nat) (maxE : Int) :
    ∀ (fuel : Nat) (paths : List (List Nat)) (q V : List Nat) (ce : Nat),
      (∀ p ∈ paths, GoodPath s e V p) → q.Nodup → (∀ x ∈ V, x ∉ q) →
      e ∉ V →
      ∀ p ∈ fapLoop g e maxE fuel paths q V ce,
        ∃ ns t, p = ns ++ [t] ∧ (ns ++ [t]).head? = some s ∧
          ns.Nodup ∧ e ∉ ns := by
  intro fuel
  induction fuel with
  | zero =>
    intro paths q V ce hp _ _ _ p hmem
    simp only [fapLoop] at hmem
    obtain ⟨ns, t, h1, h2, h3, h4, _⟩ := hp p hmem
    exact ⟨ns, t, h1, h2, h3, h4⟩
  | succ fuel ih =>
    intro paths q V ce hp hq hvq heV p hmem
    cases q with
    | nil =>
      simp only [fapLoop] at hmem
      obtain ⟨ns, t, h1, h2, h3, h4, _⟩ := hp p hmem
      exact ⟨ns, t, h1, h2, h3, h4⟩
    | cons curr qrest =>
      simp only [fapLoop] at hmem
      by_cases hce : curr = e
      · rw [if_pos hce] at hmem
        exact ih paths qrest V ce hp hq.of_cons
          (fun x hx hm => hvq x hx (List.mem_cons_of_mem _ hm)) heV p hmem
      · rw [if_neg hce] at hmem
        have hcurrV : curr ∉ V := fun hc => hvq curr hc (List.mem_cons_self _ _)
        have hsub : ∀ x ∈ V, x ∈ curr :: V :=
          fun x hx => List.mem_cons_of_mem _ hx
        have hcurr : ∀ p0 ∈ paths.filter (endsWithNode curr), ∀ n,
            GoodPath s e (curr :: V) (p0 ++ [n]) := by
          intro p0 hp0 n
          obtain ⟨hmem0, hend0⟩ := List.mem_filter.mp hp0
          have hlast : p0.getLast? = some curr := by
            simpa [endsWithNode] using hend0
          exact (hp p0 hmem0).extend hlast hcurrV hce n
        have hothers : ∀ p0 ∈ paths.filter (fun p => !(endsWithNode curr p)),
            GoodPath s e (curr :: V) p0 :=
          fun p0 hp0 => ((hp p0 (List.mem_filter.mp hp0).1).mono hsub)
        have hqrest : qrest.Nodup := hq.of_cons
        have hvq2 : ∀ x ∈ curr :: V, x ∉ qrest := by
          intro x hx
          rcases List.mem_cons.mp hx with h1 | h1
          · subst h1
            exact (List.nodup_cons.mp hq).1
          · exact fun hm => hvq x h1 (List.mem_cons_of_mem _ hm)
        have hnl := neighborLoop_inv s e maxE (paths.filter (endsWithNode curr))
          (curr :: V) hcurr (neighborsOf g curr)
          (paths.filter (fun p => !(endsWithNode curr p))) qrest ce
          hothers hqrest hvq2
        rcases hr : neighborLoop maxE (paths.filter (endsWithNode curr))
            (curr :: V) (neighborsOf g curr)
            (paths.filter (fun p => !(endsWithNode curr p))) qrest ce with
          ⟨paths2, q2, ce2, flag⟩
        rw [hr] at hmem hnl
        have heV2 : e ∉ curr :: V := by
          intro hmm
          rcases List.mem_cons.mp hmm with h1 | h1
          · exact hce h1.symm
          · exact heV h1
        cases flag
        · exact ih paths2 q2 (curr :: V) ce2 hnl.1 hnl.2.1 hnl.2.2 heV2 p hmem
        · obtain ⟨ns, t, h1, h2, h3, h4, _⟩ := hnl.1 p hmem
          exact ⟨ns, t, h1, h2, h3, h4⟩

/-- C4: every path returned by `find_all_paths_between` is simple (no
repeated node id), begins at the start node and terminates exactly at the
end node, for every graph and every budget. -/
theorem find_all_paths_simple (g : HGraph) (s e : Nat) (maxE : Int)
    (p : List Nat) (hp : p ∈ find_all_paths_between g s e maxE) :
    p.Nodup ∧ p.head? = some s ∧ p.getLast? = some e := by
  unfold find_all_paths_between at hp
  obtain ⟨hmem, hend⟩ := List.mem_filter.mp hp
  have hgood : ∀ p0 ∈ ([[s]] : List (List Nat)), GoodPath s e ([] : List Nat) p0 := by
    intro p0 hp0
    have hps : p0 = [s] := List.mem_singleton.mp hp0
    subst hps
    exact ⟨[], s, rfl, rfl, List.nodup_nil, by simp, by simp⟩
  have hshape := fapLoop_inv g s e maxE (graphFuel g) [[s]] [s] [] 0 hgood
    (List.nodup_singleton s) (by simp) (by simp) p hmem
  obtain ⟨ns, t, h1, h2, h3, h4⟩ := hshape
  have hlast : p.getLast? = some e := by simpa [endsWithNode] using hend
  have hte : t = e := by
    rw [h1, List.getLast?_concat] at hlast
    exact Option.some.inj hlast
  subst hte
  refine ⟨?_, ?_, hlast⟩
  · rw [h1, List.nodup_append]
    exact ⟨h3, List.nodup_singleton t, fun y hy hy2 =>
      h4 ((List.mem_singleton.mp hy2) ▸ hy)⟩
  · rw [h1]
    exact h2

/-- Witness for `find_all_paths_simple` on a one-edge graph. -/
theorem find_all_paths_simple_witness :
    ([1, 2] ∈ find_all_paths_between ⟨[(1, [2])], []⟩ 1 2 10) ∧
    (([1, 2] : List Nat).Nodup ∧ ([1, 2] : List Nat).head? = some 1 ∧
      ([1, 2] : List Nat).getLast? = some 2) :=
  ⟨by decide, find_all_paths_simple ⟨[(1, [2])], []⟩ 1 2 10 [1, 2] (by decide)⟩

/-! ### Claim C5 -/

/-- Total sequence length of a list of nodes under the segment map
(missing nodes counting zero; along a successful run every consumed node
has a sequence). -/
def segsLen (segs : List (Nat × List Nat)) (l : List Nat) : Nat :=
  (l.map (fun n => ((segLookup segs n).getD []).length)).sum

/-- Accumulated base offset of the first `i` nodes of a path: the sum of
the lengths of their sequences. -/
def pathOffset (segs : List (Nat × List Nat)) (p : List Nat) (i : Nat) : Nat :=
  segsLen segs (p.take i)

theorem segsLen_append (segs : List (Nat × List Nat)) (l : List Nat) (n : Nat) :
    segsLen segs (l ++ [n]) =
      segsLen segs l + ((segLookup segs n).getD []).length := by
  unfold segsLen
  simp

/-- The position convention the differ actually implements: Snv records
are keyed at the accumulated offset of a prefix of the candidate (query)
path, Del records one below such a candidate offset, and Ins records one
below an accumulated offset of a prefix of the reference path. -/
def PosConvention (segs : List (Nat × List Nat)) (rp qp : List Nat)
    (k : VariantKey) (v : Variant) : Prop :=
  (∀ b, v = Variant.Snv b →
    ∃ i, i ≤ qp.length ∧ k.pos = pathOffset segs qp i) ∧
  (∀ sq, v = Variant.Del sq →
    ∃ i, i ≤ qp.length ∧ 0 < pathOffset segs qp i ∧
      k.pos = pathOffset segs qp i - 1) ∧
  (∀ sq, v = Variant.Ins sq →
    ∃ i, i ≤ rp.length ∧ 0 < pathOffset segs rp i ∧
      k.pos = pathOffset segs rp i - 1)

theorem pathOffset_done (segs : List (Nat × List Nat)) (done rest : List Nat) :
    pathOffset segs (done ++ rest) done.length = segsLen segs done := by
  unfold pathOffset
  rw [List.take_left]

theorem detectLoop_pos (segs : List (Nat × List Nat)) (refName rp qp : List Nat) :
    ∀ (fuel : Nat) (rdone qdone refRest queryRest : List Nat)
      (prevRef : Option Nat) (vars out : List (VariantKey × Variant)),
      rp = rdone ++ refRest → qp = qdone ++ queryRest →
      (∀ k v, (k, v) ∈ vars → PosConvention segs rp qp k v) →
      detectLoop segs refName fuel refRest queryRest prevRef
        (segsLen segs rdone) (segsLen segs qdone) vars = some out →
      ∀ k v, (k, v) ∈ out → PosConvention segs rp qp k v := by
  intro fuel
  induction fuel with
  | zero =>
    intro rdone qdone refRest queryRest prevRef vars out hr hq hvars hrun
    simp [detectLoop] at hrun
  | succ fuel ih =>
    intro rdone qdone refRest queryRest prevRef vars out hr hq hvars hrun
    cases refRest with
    | nil =>
      simp only [detectLoop] at hrun
      obtain rfl := Option.some.inj hrun
      exact hvars
    | cons refNode refTl =>
      cases queryRest with
      | nil =>
        simp only [detectLoop] at hrun
        obtain rfl := Option.some.inj hrun
        exact hvars
      | cons queryNode queryTl =>
        simp only [detectLoop] at hrun
        split at hrun
        · exact absurd hrun (by simp)
        · exact absurd hrun (by simp)
        · rename_i refSeq querySeq hseg1 hseg2
          have hrs : segsLen segs (rdone ++ [refNode]) =
              segsLen segs rdone + refSeq.length := by
            rw [segsLen_append, hseg1, Option.getD_some]
          have hqs : segsLen segs (qdone ++ [queryNode]) =
              segsLen segs qdone + querySeq.length := by
            rw [segsLen_append, hseg2, Option.getD_some]
          split at hrun
          · -- shared spine: both advance
            rename_i heq
            refine ih (rdone ++ [refNode]) (qdone ++ [queryNode]) refTl queryTl
              (some refNode) vars out ?_ ?_ hvars ?_
            · rw [hr, List.append_assoc]; rfl
            · rw [hq, List.append_assoc]; rfl
            · rw [hrs, hqs]; exact hrun
          · -- divergent branch
            split at hrun
            · exact absurd hrun (by simp)
            · exact absurd hrun (by simp)
            · rename_i nextRef nextRefTl nextQuery nextQueryTl
              split at hrun
              · -- Deletion
                split at hrun
                · exact absurd hrun (by simp)
                · rename_i prevNode
                  split at hrun
                  · exact absurd hrun (by simp)
                  · rename_i prevSeq hprev
                    split at hrun
                    · exact absurd hrun (by simp)
                    · rename_i lastPrev hlast
                      split at hrun
                      · exact absurd hrun (by simp)
                      · rename_i hq0
                        refine ih (rdone ++ [refNode]) qdone
                          (nextRef :: nextRefTl)
                          (queryNode :: nextQuery :: nextQueryTl)
                          (some refNode)
                          (mapInsert vars
                            ⟨refName, lastPrev :: refSeq, segsLen segs qdone - 1⟩
                            (Variant.Del [lastPrev])) out ?_ hq ?_ ?_
                        · rw [hr, List.append_assoc]; rfl
                        · intro k v hm
                          rcases mapInsert_mem hm with hold | ⟨hk, hv⟩
                          · exact hvars k v hold
                          · subst hk; subst hv
                            refine ⟨?_, ?_, ?_⟩
                            · intro b hb; exact absurd hb (by simp)
                            · intro sq hd
                              refine ⟨qdone.length, ?_, ?_, ?_⟩
                              · rw [hq]; simp
                              · rw [hq, pathOffset_done]
                                exact Nat.pos_of_ne_zero hq0
                              · rw [hq, pathOffset_done]
                            · intro sq hins; exact absurd hins (by simp)
                        · rw [hrs]; exact hrun
              · split at hrun
                · -- Insertion
                  split at hrun
                  · exact absurd hrun (by simp)
                  · rename_i prevNode
                    split at hrun
                    · exact absurd hrun (by simp)
                    · rename_i prevSeq hprev
                      split at hrun
                      · exact absurd hrun (by simp)
                      · rename_i lastPrev hlast
                        split at hrun
                        · exact absurd hrun (by simp)
                        · rename_i hr0
                          refine ih rdone (qdone ++ [queryNode])
                            (refNode :: nextRef :: nextRefTl)
                            (nextQuery :: nextQueryTl)
                            (some prevNode)
                            (mapInsert vars
                              ⟨refName, lastPrev :: refSeq, segsLen segs rdone - 1⟩
                              (Variant.Ins [lastPrev])) out hr ?_ ?_ ?_
                          · rw [hq, List.append_assoc]; rfl
                          · intro k v hm
                            rcases mapInsert_mem hm with hold | ⟨hk, hv⟩
                            · exact hvars k v hold
                            · subst hk; subst hv
                              refine ⟨?_, ?_, ?_⟩
                              · intro b hb; exact absurd hb (by simp)
                              · intro sq hd; exact absurd hd (by simp)
                              · intro sq hins
                                refine ⟨rdone.length, ?_, ?_, ?_⟩
                                · rw [hr]; simp
                                · rw [hr, pathOffset_done]
                                  exact Nat.pos_of_ne_zero hr0
                                · rw [hr, pathOffset_done]
                          · rw [hqs]; exact hrun
                · -- SNV
                  split at hrun
                  · exact absurd hrun (by simp)
                  · rename_i lastQuery hlastq
                    refine ih (rdone ++ [refNode]) (qdone ++ [queryNode])
                      (nextRef :: nextRefTl) (nextQuery :: nextQueryTl)
                      (some refNode)
                      (mapInsert vars ⟨refName, refSeq, segsLen segs qdone⟩
                        (Variant.Snv lastQuery)) out ?_ ?_ ?_ ?_
                    · rw [hr, List.append_assoc]; rfl
                    · rw [hq, List.append_assoc]; rfl
                    · intro k v hm
                      rcases mapInsert_mem hm with hold | ⟨hk, hv⟩
                      · exact hvars k v hold
                      · subst hk; subst hv
                        refine ⟨?_, ?_, ?_⟩
                        · intro b hb
                          refine ⟨qdone.length, ?_, ?_⟩
                          · rw [hq]; simp
                          · rw [hq, pathOffset_done]
                        · intro sq hd; exact absurd hd (by simp)
                        · intro sq hins; exact absurd hins (by simp)
                    · rw [hrs, hqs]; exact hrun

/-- C5 amended: every variant record the differ produces follows its
mixed position convention — Snv positions are accumulated offsets of a
candidate-path prefix, Del positions sit one below such a candidate
offset, and only Ins positions are anchored one below an accumulated
reference-path offset; positions therefore agree with the reference
coordinate only while the two accumulated offsets have not diverged. -/
theorem detect_variants_pos_convention (segs : List (Nat × List Nat))
    (refName rp qp : List Nat) (out : List (VariantKey × Variant))
    (h : detect_variants_against_ref segs refName rp qp = some out) :
    ∀ k v, (k, v) ∈ out → PosConvention segs rp qp k v :=
  detectLoop_pos segs refName rp qp (rp.length + qp.length + 1) [] [] rp qp
    none [] out rfl rfl (fun _ _ hm => absurd hm (List.not_mem_nil _)) h

/-- C5 counterexample: after an insertion has shifted the candidate
offset ahead of the reference offset, the subsequent SNV record is keyed
at the candidate offset 4 and not at the reference-coordinate offset 3
of its anchor node (node 5, preceded on the reference by sequences of
lengths 2 and 1). -/
theorem variant_pos_not_reference_anchored :
    detect_variants_against_ref
        [(1, [65, 65]), (2, [71]), (4, [84]), (5, [67]), (6, [65]), (7, [71])]
        [82] [1, 4, 5, 7] [1, 2, 4, 6, 7] =
      some [(⟨[82], [65, 84], 1⟩, Variant.Ins [65]),
            (⟨[82], [67], 4⟩, Variant.Snv 65)] ∧
    pathOffset
        [(1, [65, 65]), (2, [71]), (4, [84]), (5, [67]), (6, [65]), (7, [71])]
        [1, 4, 5, 7] 2 = 3 ∧
    (4 : Nat) ≠ 3 := by
  refine ⟨by rfl, by rfl, by decide⟩

/-- Witness for `detect_variants_pos_convention` at the concrete run of
the counterexample, instantiated at its Snv record. -/
theorem detect_variants_pos_convention_witness :
    PosConvention
      [(1, [65, 65]), (2, [71]), (4, [84]), (5, [67]), (6, [65]), (7, [71])]
      [1, 4, 5, 7] [1, 2, 4, 6, 7] ⟨[82], [67], 4⟩ (Variant.Snv 65) :=
  detect_variants_pos_convention
    [(1, [65, 65]), (2, [71]), (4, [84]), (5, [67]), (6, [65]), (7, [71])]
    [82] [1, 4, 5, 7] [1, 2, 4, 6, 7]
    [(⟨[82], [65, 84], 1⟩, Variant.Ins [65]), (⟨[82], [67], 4⟩, Variant.Snv 65)]
    (by rfl) ⟨[82], [67], 4⟩ (Variant.Snv 65) (by simp)

/-! ### Claim C7 -/

theorem natCmp_eq_iff (a b : Nat) : natCmp a b = .eq ↔ a = b := by
  unfold natCmp
  split_ifs <;> simp <;> omega

theorem natCmp_lt_iff (a b : Nat) : natCmp a b = .lt ↔ a < b := by
  unfold natCmp
  split_ifs <;> simp <;> omega

theorem natCmp_swap (a b : Nat) : natCmp b a = (natCmp a b).swap := by
  unfold natCmp
  split_ifs <;> first | rfl | omega

theorem bytesCmp_eq_iff : ∀ x y : List Nat, bytesCmp x y = .eq ↔ x = y := by
  intro x
  induction x with
  | nil => intro y; cases y <;> simp [bytesCmp]
  | cons a as ih =>
    intro y
    cases y with
    | nil => simp [bytesCmp]
    | cons b bs =>
      simp only [bytesCmp]
      rcases h : natCmp a b with _ | _ | _
      · constructor
        · intro hh; simp at hh
        · intro hh
          injection hh with h1 h2
          subst h1
          rw [(natCmp_eq_iff a a).mpr rfl] at h
          simp at h
      · have hab : a = b := (natCmp_eq_iff a b).mp h
        constructor
        · intro hh
          have h3 : as = bs := (ih bs).mp hh
          rw [hab, h3]
        · intro hh
          injection hh with h1 h2
          exact (ih bs).mpr h2
      · constructor
        · intro hh; simp at hh
        · intro hh
          injection hh with h1 h2
          subst h1
          rw [(natCmp_eq_iff a a).mpr rfl] at h
          simp at h

theorem bytesCmp_swap : ∀ x y : List Nat, bytesCmp y x = (bytesCmp x y).swap := by
  intro x
  induction x with
  | nil => intro y; cases y <;> rfl
  | cons a as ih =>
    intro y
    cases y with
    | nil => rfl
    | cons b bs =>
      simp only [bytesCmp, natCmp_swap a b]
      rcases h : natCmp a b with _ | _ | _
      · rfl
      · exact ih bs
      · rfl

theorem bytesCmp_lt_trans : ∀ x y z : List Nat,
    bytesCmp x y = .lt → bytesCmp y z = .lt → bytesCmp x z = .lt := by
  intro x
  induction x with
  | nil =>
    intro y z h1 h2
    cases z with
    | nil =>
      cases y with
      | nil => simp [bytesCmp] at h1
      | cons b bs => simp [bytesCmp] at h2
    | cons c cs => rfl
  | cons a as ih =>
    intro y z h1 h2
    cases y with
    | nil => simp [bytesCmp] at h1
    | cons b bs =>
      cases z with
      | nil => simp [bytesCmp] at h2
      | cons c cs =>
        simp only [bytesCmp] at h1 h2 ⊢
        rcases hab : natCmp a b with _ | _ | _ <;> rw [hab] at h1
        · rcases hbc : natCmp b c with _ | _ | _ <;> rw [hbc] at h2
          · have h3 : a < b := (natCmp_lt_iff a b).mp hab
            have h4 : b < c := (natCmp_lt_iff b c).mp hbc
            rw [show natCmp a c = .lt from (natCmp_lt_iff a c).mpr (by omega)]
          · have hbc2 : b = c := (natCmp_eq_iff b c).mp hbc
            subst hbc2
            rw [hab]
          · simp at h2
        · have hab2 : a = b := (natCmp_eq_iff a b).mp hab
          subst hab2
          rcases hbc : natCmp a c with _ | _ | _
          · rfl
          · rw [hbc] at h2
            exact ih bs cs h1 h2
          · rw [hbc] at h2
            simp at h2
        · simp at h1

theorem intCmp_isLE_iff (a b : Int) : (intCmp a b).isLE = true ↔ a ≤ b := by
  unfold intCmp
  split_ifs <;> simp [Ordering.isLE] <;> omega

theorem intCmp_swap (a b : Int) : intCmp b a = (intCmp a b).swap := by
  unfold intCmp
  split_ifs <;> first | rfl | omega

theorem vcfRecordCmp_swap (a b : VCFRecord) :
    vcfRecordCmp b a = (vcfRecordCmp a b).swap := by
  unfold vcfRecordCmp
  rw [bytesCmp_swap a.chromosome b.chromosome]
  rcases h : bytesCmp a.chromosome b.chromosome with _ | _ | _
  · rfl
  · exact intCmp_swap a.position b.position
  · rfl

theorem vcfLe_total : ∀ a b : VCFRecord, (vcfLe a b || vcfLe b a) = true := by
  intro a b
  unfold vcfLe
  rw [vcfRecordCmp_swap a b]
  rcases h : vcfRecordCmp a b with _ | _ | _ <;> rfl

theorem vcfLe_trans : ∀ a b c : VCFRecord,
    vcfLe a b = true → vcfLe b c = true → vcfLe a c = true := by
  intro a b c h1 h2
  unfold vcfLe vcfRecordCmp at h1 h2 ⊢
  rcases hab : bytesCmp a.chromosome b.chromosome with _ | _ | _ <;> rw [hab] at h1
  · rcases hbc : bytesCmp b.chromosome c.chromosome with _ | _ | _ <;> rw [hbc] at h2
    · rw [show bytesCmp a.chromosome c.chromosome = .lt from
        bytesCmp_lt_trans _ _ _ hab hbc]
      rfl
    · have hbc2 : b.chromosome = c.chromosome := (bytesCmp_eq_iff _ _).mp hbc
      rw [← hbc2, hab]
      rfl
    · exact Bool.noConfusion h2
  · have hab2 : a.chromosome = b.chromosome := (bytesCmp_eq_iff _ _).mp hab
    rcases hbc : bytesCmp b.chromosome c.chromosome with _ | _ | _ <;> rw [hbc] at h2
    · rw [hab2, hbc]
      rfl
    · rw [hab2, hbc]
      have p1 : a.position ≤ b.position := (intCmp_isLE_iff _ _).mp h1
      have p2 : b.position ≤ c.position := (intCmp_isLE_iff _ _).mp h2
      show (intCmp a.position c.position).isLE = true
      exact (intCmp_isLE_iff _ _).mpr (by omega)
    · exact Bool.noConfusion h2
  · exact Bool.noConfusion h1

/-- C7: the record list produced by the final sort is totally ordered —
non-decreasing by (chromosome compared byte-lexicographically, then
integer position) — for every input record list. -/
theorem vcf_output_sorted (l : List VCFRecord) :
    (sortVCFRecords l).Sorted (fun a b =>
      bytesCmp a.chromosome b.chromosome = Ordering.lt ∨
      (a.chromosome = b.chromosome ∧ a.position ≤ b.position)) := by
  have hs := List.sorted_mergeSort vcfLe_trans vcfLe_total l
  refine List.Pairwise.imp ?_ hs
  intro a b h
  unfold vcfLe vcfRecordCmp at h
  rcases hab : bytesCmp a.chromosome b.chromosome with _ | _ | _ <;> rw [hab] at h
  · exact Or.inl rfl
  · exact Or.inr ⟨(bytesCmp_eq_iff _ _).mp hab, (intCmp_isLE_iff _ _).mp h⟩
  · exact Bool.noConfusion h

end GfaUtils
